import Mathlib

/-!
Verification of the privacy-policy extraction pipeline (`main.py`).

Python strings are modelled as `List Char`; the LLM oracle is modelled as an
abstract behaviour (a stream of already-parsed responses, or an abstract
fallible function per pipeline stage), since the network call itself is an
external collaborator.  Python exceptions are modelled with `Except`;
functions that cannot raise are total Lean functions.
-/

/-! ## Python character / string helpers -/

/-- Characters removed by Python `str.strip()` (whitespace).  The ASCII
whitespace set plus the two non-ASCII spaces that can occur in Chinese text. -/
def isPySpace (c : Char) : Bool :=
  c = ' ' || c = '\t' || c = '\n' || c = '\r' || c = '\x0b' || c = '\x0c' ||
  c = ' ' || c = '　'

/-- Python `str.strip(chars)`: drop the characters satisfying `f` from both
ends of the string. -/
def pyStrip (f : Char → Bool) (l : List Char) : List Char :=
  ((l.dropWhile f).reverse.dropWhile f).reverse

/-! ## JsonRecoverer: `extract_first_json`

`extract_first_json` first strips whitespace, removes a leading markdown
fence marker (``` with optional case-insensitive `json` tag, the regex
`^```(?:json)?`), strips the characters ``` ` ``, space and newline from both
ends, finds the first `{` or `[`, and then scans forward with a stack of open
brackets, returning the slice up to the close that empties the stack. -/

def isOpenB (c : Char) : Bool := c = '{' || c = '['

def isCloseB (c : Char) : Bool := c = '}' || c = ']'

/-- Characters stripped by the trailing `.strip("` \n")` in
`extract_first_json`. -/
def isTickStrip (c : Char) : Bool := c = '`' || c = ' ' || c = '\n'

/-- The optional `(?:json)?` part of the fence regex (case-insensitive). -/
def stripJsonTag (l : List Char) : List Char :=
  match l with
  | a :: b :: c :: d :: rest =>
    if a.toLower = 'j' ∧ b.toLower = 's' ∧ c.toLower = 'o' ∧ d.toLower = 'n' then rest
    else l
  | _ => l

/-- `re.sub(r"^```(?:json)?", "", ·)`: remove a leading fence marker. -/
def stripFence (l : List Char) : List Char :=
  match l with
  | a :: b :: c :: rest =>
    if a = '`' ∧ b = '`' ∧ c = '`' then stripJsonTag rest else l
  | _ => l

/-- The bracket-matching loop of `extract_first_json`.  `stack` is the stack
of open brackets, `acc` the (reversed) characters consumed so far.  Mirrors:
push on `{`/`[`; on `}`/`]` pop and abort on mismatch or empty stack; when the
stack empties return the consumed slice; `None` if the input ends first. -/
def scanLoop : List Char → List Char → List Char → Option (List Char)
  | _, _, [] => none
  | stack, acc, c :: rest =>
    if isOpenB c then scanLoop (c :: stack) (c :: acc) rest
    else if isCloseB c then
      match stack with
      | [] => none
      | last :: stack' =>
        if (last = '{' ∧ c ≠ '}') ∨ (last = '[' ∧ c ≠ ']') then none
        else if stack'.isEmpty then some (c :: acc).reverse
        else scanLoop stack' (c :: acc) rest
    else scanLoop stack (c :: acc) rest

/-- `extract_first_json` from `main.py`: markdown stripping, then the first
balanced `{...}` / `[...]` slice (or `none`). -/
def extract_first_json (text : List Char) : Option (List Char) :=
  let t1 := pyStrip isTickStrip (stripFence (pyStrip isPySpace text))
  let s := t1.dropWhile (fun c => !(isOpenB c))
  if s.isEmpty then none else scanLoop [] [] s

/-- Balanced bracket sequences: the grammar the spec describes for the
recoverable region, written independently of the scanning code.  Non-bracket
characters are transparent; brackets occur only as matched structural pairs.
This is the spec-side characterisation used for the refinement claim about
`extract_first_json`. -/
inductive Bal : List Char → Prop where
  | nil : Bal []
  | ch {c : Char} {l : List Char} : isOpenB c = false → isCloseB c = false →
      Bal l → Bal (c :: l)
  | obj {inner l : List Char} : Bal inner → Bal l → Bal ('{' :: inner ++ '}' :: l)
  | arr {inner l : List Char} : Bal inner → Bal l → Bal ('[' :: inner ++ ']' :: l)

/-- A balanced top-level JSON object or array, spec-side. -/
def BalValue (v : List Char) : Prop :=
  (∃ inner, Bal inner ∧ v = '{' :: inner ++ ['}']) ∨
  (∃ inner, Bal inner ∧ v = '[' :: inner ++ [']'])

/-! ## StructureDetector: `detect_min_level`, `build_level_regex`,
`split_by_detected_level`

The four numbering regexes are embedded as deterministic matchers (for these
patterns Python's leftmost-greedy matching needs no backtracking: every
quantified class is disjoint from the character that must follow it).
`re.findall` / `re.finditer` are embedded as fuelled left-to-right scanners;
the fuel is the input length, which bounds the number of scanning steps since
every step consumes at least one character. -/

/-- The Chinese numerals of the numbering patterns. -/
def isCnNum (c : Char) : Bool :=
  ['一', '二', '三', '四', '五', '六', '七', '八', '九', '十'].contains c

/-- The terminator class `[、.．．]`. -/
def isLevelDot (c : Char) : Bool := c = '、' || c = '.' || c = '．'

/-- Length of the leading run of characters satisfying `f`. -/
def runLen (f : Char → Bool) (l : List Char) : Nat := (l.takeWhile f).length

/-- The `(?:\.\d+)*` part of the first `detect_min_level` pattern: number of
characters consumed by dot-then-digits groups. -/
def dotGroupsAux : Nat → List Char → Nat
  | 0, _ => 0
  | fuel + 1, l =>
    match l with
    | '.' :: rest =>
      let r := runLen Char.isDigit rest
      if r = 0 then 0 else 1 + r + dotGroupsAux fuel (rest.drop r)
    | _ => 0

def dotGroups (l : List Char) : Nat := dotGroupsAux l.length l

/-- Pattern `\d+(?:\.\d+)*[、.．．]?` (match length at the head, if any). -/
def pat1Body (s : List Char) : Option Nat :=
  let r := runLen Char.isDigit s
  if r = 0 then none
  else
    let g := dotGroups (s.drop r)
    let n := r + g
    match s.drop n with
    | c :: _ => some (n + if isLevelDot c then 1 else 0)
    | [] => some n

/-- Pattern `\([一二三四五六七八九十\d]+\)`. -/
def pat2Body (s : List Char) : Option Nat :=
  match s with
  | '(' :: rest =>
    let r := runLen (fun c => isCnNum c || c.isDigit) rest
    if r = 0 then none
    else match rest.drop r with
      | ')' :: _ => some (r + 2)
      | _ => none
  | _ => none

/-- Pattern `（[一二三四五六七八九十\d]+）`. -/
def pat3Body (s : List Char) : Option Nat :=
  match s with
  | '（' :: rest =>
    let r := runLen (fun c => isCnNum c || c.isDigit) rest
    if r = 0 then none
    else match rest.drop r with
      | '）' :: _ => some (r + 2)
      | _ => none
  | _ => none

/-- Pattern `[一二三四五六七八九十]+、`. -/
def pat4Body (s : List Char) : Option Nat :=
  let r := runLen isCnNum s
  if r = 0 then none
  else match s.drop r with
    | '、' :: _ => some (r + 1)
    | _ => none

/-- `re.findall` for an anchor-free pattern: left-to-right, non-overlapping;
on a match continue after it, otherwise advance one character.  A zero-length
match still advances one character (as in Python). -/
def findallAux (body : List Char → Option Nat) : Nat → List Char → List (List Char)
  | 0, _ => []
  | _ + 1, [] => []
  | fuel + 1, c :: rest =>
    match body (c :: rest) with
    | some L => ((c :: rest).take L) :: findallAux body fuel ((c :: rest).drop (max L 1))
    | none => findallAux body fuel rest

def findall (body : List Char → Option Nat) (s : List Char) : List (List Char) :=
  findallAux body s.length s

/-- Depth assigned to one match by `detect_min_level`:
`m.count('.') + 1 if '.' in m else 1`. -/
def matchDepth (m : List Char) : Nat :=
  if m.contains '.' then m.count '.' + 1 else 1

/-- `detect_min_level` from `main.py`: run the four patterns over the first
`1000` characters and fold the maximum depth, starting from `1`. -/
def detect_min_level (text : List Char) : Nat :=
  let sample := text.take 1000
  let all_matches :=
    findall pat1Body sample ++ findall pat2Body sample ++
    findall pat3Body sample ++ findall pat4Body sample
  all_matches.foldl (fun md m => if matchDepth m > md then matchDepth m else md) 1

/-- Group body of the level-1 split regex
`\d+[、.．．]|[一二三四五六七八九十]+、|（[一二三四五六七八九十\d]+）|\([一二三四五六七八九十\d]+\)`
(alternatives tried in source order; their first characters are disjoint). -/
def lvl1Body (s : List Char) : Option Nat :=
  (let r := runLen Char.isDigit s
   if r = 0 then none
   else match s.drop r with
     | c :: _ => if isLevelDot c then some (r + 1) else none
     | [] => none) <|>
  pat4Body s <|> pat3Body s <|> pat2Body s

/-- `\d+(\.\d+)×(k-1)` for the level-2/3 split regexes: exactly `k`
dot-separated digit runs; returns the consumed length. -/
def dottedRuns : Nat → List Char → Option Nat
  | 0, _ => none
  | 1, s =>
    let r := runLen Char.isDigit s
    if r = 0 then none else some r
  | k + 2, s =>
    let r := runLen Char.isDigit s
    if r = 0 then none
    else match s.drop r with
      | '.' :: rest => (dottedRuns (k + 1) rest).map (fun n => r + 1 + n)
      | _ => none

/-- `[、.．．]?` after the digit part: one extra character if present. -/
def optLevelDot (s : List Char) : Nat :=
  match s with
  | c :: _ => if isLevelDot c then 1 else 0
  | [] => 0

/-- Group body of the level-`k` (k = 2, 3) split regex
`\d+\.\d+[、.．．]?` / `\d+\.\d+\.\d+[、.．．]?`. -/
def dottedBody (k : Nat) (s : List Char) : Option Nat :=
  (dottedRuns k s).map (fun n => n + optLevelDot (s.drop n))

/-- One `\\d+` element of the `else`-branch pattern of `build_level_regex`.
In that branch the source joins the *raw* strings `r'\\d+'` with `r'\\.'`, so
the regex matches a literal backslash followed by literal `d` characters. -/
def bsdSeg (s : List Char) : Option Nat :=
  match s with
  | '\\' :: rest =>
    let r := runLen (fun c => c = 'd') rest
    if r = 0 then none else some (1 + r)
  | _ => none

/-- The joined `\\d+(\\.\\d+)*` body of the `else` branch: `k` segments
separated by `\\.` = literal backslash plus any non-newline character. -/
def bsdRuns : Nat → List Char → Option Nat
  | 0, _ => none
  | 1, s => bsdSeg s
  | k + 2, s =>
    match bsdSeg s with
    | none => none
    | some a =>
      match s.drop a with
      | '\\' :: c :: rest =>
        if c = '\n' then none
        else (bsdRuns (k + 1) rest).map (fun n => a + 2 + n)
      | _ => none

/-- `build_level_regex` from `main.py`, as the group body matcher used after
the `(?:^|\n)` anchor.  Levels 2 and 3 are the dotted patterns; every other
level goes to the `else` branch whose escaping bug makes it match literal
backslash-`d` text (level `0` there degenerates to the bare optional
terminator).  `detect_min_level` never returns `0`. -/
def build_level_regex (level : Nat) : List Char → Option Nat :=
  match level with
  | 1 => lvl1Body
  | 2 => dottedBody 2
  | 3 => dottedBody 3
  | 0 => fun s => some (optLevelDot s)
  | k => fun s => (bsdRuns k s).map (fun n => n + optLevelDot (s.drop n))

/-- The `(?:^|\n)` anchor of the split regex: at position 0 try the body
directly, then (and at every later position) a newline followed by the body;
the span includes that newline. -/
def anchorHit (body : List Char → Option Nat) (pos : Nat) (c : Char)
    (rest : List Char) : Option Nat :=
  if pos = 0 then
    match body (c :: rest) with
    | some L => some L
    | none => if c = '\n' then (body rest).map (· + 1) else none
  else if c = '\n' then (body rest).map (· + 1) else none

/-- `re.finditer` for `(?:^|\n)(body)`.  Matches are non-overlapping;
scanning resumes after each match (one character further for an empty
match). -/
def finditerAux (body : List Char → Option Nat) :
    Nat → List Char → Nat → List (Nat × Nat)
  | 0, _, _ => []
  | _ + 1, [], _ => []
  | fuel + 1, c :: rest, pos =>
    match anchorHit body pos c rest with
    | some L =>
      (pos, pos + L) :: finditerAux body fuel ((c :: rest).drop (max L 1)) (pos + max L 1)
    | none => finditerAux body fuel rest (pos + 1)

def finditer (body : List Char → Option Nat) (s : List Char) : List (Nat × Nat) :=
  finditerAux body s.length s 0

/-- The slice loop of `split_by_detected_level`: paragraph `i` is
`text[m_i.start : m_{i+1}.start].strip()`, the last paragraph runs to the end
of the text. -/
def paraSlices (text : List Char) : List (Nat × Nat) → List (List Char)
  | [] => []
  | [m] => [pyStrip isPySpace ((text.drop m.1).take (text.length - m.1))]
  | m :: m' :: rest =>
    pyStrip isPySpace ((text.drop m.1).take (m'.1 - m.1)) :: paraSlices text (m' :: rest)

/-- The body of `split_by_detected_level` after the matches are computed:
no matches → the whole stripped text (if non-empty); otherwise the slice list,
plus — when the last *match* (not the last paragraph) ends before the end of
the text — the stripped tail after it, then drop empty entries. -/
def split_core (text : List Char) (ms : List (Nat × Nat)) : List (List Char) :=
  match ms with
  | [] => if pyStrip isPySpace text = [] then [] else [pyStrip isPySpace text]
  | m :: rest =>
    let paras := paraSlices text (m :: rest)
    let lastEnd := ((m :: rest).getLast (List.cons_ne_nil m rest)).2
    let tail := pyStrip isPySpace (text.drop lastEnd)
    let paras2 :=
      if lastEnd < text.length ∧ tail ≠ [] then paras ++ [tail] else paras
    paras2.filter (fun p => !p.isEmpty)

/-- `split_by_detected_level` from `main.py`. -/
def split_by_detected_level (text : List Char) : List (List Char) :=
  split_core text (finditer (build_level_regex (detect_min_level text)) text)

/-! ## EntityClassifier: `classify_entities`

`classify_data_items` hands the item list to the oracle and parses the
returned JSON object; its observable outcome per call is a (possibly empty)
string-keyed mapping — `{}` both for transport failure and a non-dict parse —
modelled as an association list.  The oracle's behaviour over the (up to two)
calls made by `classify_entities` is a stream indexed by the attempt
number. -/

/-- A parsed classification response: item ↦ (level-1 category, level-2
category). -/
abbrev Classified := List (String × (String × String))

/-- The acceptance test of `classify_entities`:
`response and isinstance(response, dict) and all(ent in response for ent in entities)`. -/
def classify_response_ok (entities : List String) (r : Classified) : Bool :=
  !r.isEmpty && entities.all (fun e => (r.lookup e).isSome)

/-- The fallback sentinel pair `("未分类", "未分类")`. -/
def unclassified : String × String := ("未分类", "未分类")

/-- `classify_entities` from `main.py`: empty input → empty mapping; then at
most two oracle attempts, returning the first response that is a non-empty
dict containing every entity; otherwise every entity maps to the sentinel. -/
def classify_entities (oracle : Nat → Classified) (entities : List String) :
    Classified :=
  if entities.isEmpty then []
  else if classify_response_ok entities (oracle 0) then oracle 0
  else if classify_response_ok entities (oracle 1) then oracle 1
  else entities.map (fun e => (e, unclassified))

/-! ## ScenarioRecognizer: `recognize_scenarios_and_build_relations`,
`get_scene_tags`

Parsed oracle JSON is modelled to the nesting depth the code inspects: a
top-level value (`PyJson`) whose array elements are scalars or arrays of
scalars (`PyVal`).  The oracle response is `none` for transport failure
(`call_deepseek_api` returned `None`), `some (.error ())` for a response in
which `robust_json_loads` finds no parseable JSON (it re-raises), and
`some (.ok v)` for a parsed value `v`. -/

inductive PyScalar where
  | s (v : String)
  | i (n : Int)
  | b (v : Bool)
  | null
deriving DecidableEq

inductive PyVal where
  | scalar (v : PyScalar)
  | list (l : List PyScalar)
deriving DecidableEq

inductive PyJson where
  | arr (l : List PyVal)
  | obj (kvs : List (String × PyVal))
  | scalar (v : PyScalar)
deriving DecidableEq

/-- Python truthiness of a parsed JSON value (`triplets if triplets else []`). -/
def pyFalsy : PyJson → Bool
  | .arr [] => true
  | .obj [] => true
  | .scalar .null => true
  | .scalar (.b false) => true
  | .scalar (.i 0) => true
  | .scalar (.s "") => true
  | _ => false

/-- Python `for t in x`: arrays yield elements, strings yield characters,
dicts yield keys, and other scalars raise `TypeError`. -/
def pyIterate : PyJson → Except Unit (List PyVal)
  | .arr l => .ok l
  | .obj kvs => .ok (kvs.map (fun kv => PyVal.scalar (PyScalar.s kv.1)))
  | .scalar (.s v) => .ok (v.toList.map (fun c => PyVal.scalar (PyScalar.s c.toString)))
  | .scalar _ => .error ()

/-- An oracle response as seen by the scenario recognizer. -/
abbrev SceneResp := Option (Except Unit PyJson)

/-- `recognize_scenarios_and_build_relations` from `main.py`: transport
failure → `[]`; unparseable response → the `robust_json_loads` exception input
propagates; otherwise the parsed value, with falsy values replaced by `[]`. -/
def recognize_scenarios_and_build_relations (resp : SceneResp) :
    Except Unit PyJson :=
  match resp with
  | none => .ok (.arr [])
  | some (.error e) => .error e
  | some (.ok v) => .ok (if pyFalsy v then .arr [] else v)

/-- `get_scene_tags` from `main.py`: keep the entries `t` of the recognized
value with `isinstance(t, list) and len(t) >= 2`. -/
def get_scene_tags (resp : SceneResp) : Except Unit (List PyVal) := do
  let tri ← recognize_scenarios_and_build_relations resp
  let items ← pyIterate tri
  pure (items.filter (fun t =>
    match t with
    | .list xs => decide (2 ≤ xs.length)
    | _ => false))

/-! ## ParagraphPipeline: `process_policies`' paragraph loop

The four per-paragraph stages are abstracted as fallible functions (each is an
oracle round-trip and may raise); the loop body mirrors the
`try`/`except` of `process_policies`, which catches any stage exception at the
paragraph boundary and drops the paragraph. -/

structure EntityRow where
  item : String
  cat1 : String
  cat2 : String
deriving DecidableEq

/-- One converted relation record: `{"场景": rel[:3], "关系": rel[3],
"数据项": rel[4]}`. -/
structure RelRow where
  scene : List PyScalar
  action : PyScalar
  item : PyScalar
deriving DecidableEq

/-- One paragraph record (`段落`, `段号`, `场景标签`, `实体`, `关系标注`). -/
structure ParaRecord where
  para : String
  idx : Nat
  sceneTags : List PyVal
  entities : List EntityRow
  relations : List RelRow
deriving DecidableEq

/-- The abstract per-paragraph stages (`get_scene_tags`, `extract_entities`,
`classify_entities`, `analyze_actions` as called by the loop); `Except`
models a possible exception escaping the stage. -/
structure Stages where
  get_scene_tags : String → Except String (List PyVal)
  extract_entities : String → Except String (List String)
  classify_entities : List String → Except String Classified
  analyze_actions : String → List PyVal → List String → Except String (List PyVal)

/-- `build_entity_list` from `main.py`: every entity with its categories from
the classification mapping, empty strings when absent. -/
def build_entity_list (entities : List String) (classified : Classified) :
    List EntityRow :=
  entities.map (fun e =>
    { item := e
      cat1 := ((classified.lookup e).map Prod.fst).getD ""
      cat2 := ((classified.lookup e).map Prod.snd).getD "" })

/-- The conversion loop over `analyze_actions` raw rows in `process_policies`:
keep list rows of length ≥ 5 as `{"场景": rel[:3], "关系": rel[3],
"数据项": rel[4]}`. -/
def convert_relations (raw : List PyVal) : List RelRow :=
  raw.filterMap (fun r =>
    match r with
    | .list xs =>
      if 5 ≤ xs.length then
        some { scene := xs.take 3, action := xs.getD 3 .null, item := xs.getD 4 .null }
      else none
    | _ => none)

/-- The `try` body of the paragraph loop: the four stages in order, then the
record assembly. -/
def run_paragraph (st : Stages) (para : String) (idx : Nat) :
    Except String ParaRecord := do
  let tags ← st.get_scene_tags para
  let ents ← st.extract_entities para
  let classified ← st.classify_entities ents
  let raw ← st.analyze_actions para tags ents
  pure { para := para, idx := idx, sceneTags := tags,
         entities := build_entity_list ents classified,
         relations := convert_relations raw }

/-- The paragraph loop of `process_policies`: paragraphs are numbered from 1;
a stage exception is caught and the paragraph dropped. -/
def process_paragraphs_aux (st : Stages) : Nat → List String → List ParaRecord
  | _, [] => []
  | i, p :: rest =>
    match run_paragraph st p (i + 1) with
    | .ok rec => rec :: process_paragraphs_aux st (i + 1) rest
    | .error _ => process_paragraphs_aux st (i + 1) rest

def process_paragraphs (st : Stages) (paras : List String) : List ParaRecord :=
  process_paragraphs_aux st 0 paras

/-! ## ResultFlattener: `flatten_results` -/

/-- One flat output row. -/
structure FlatRow where
  policy : String
  idx : Nat
  item : PyScalar
  cat1 : String
  cat2 : String
  scene1 : PyScalar
  scene2 : PyScalar
  scene3 : PyScalar
  action : PyScalar
deriving DecidableEq

/-- The body of the inner loop of `flatten_results`: look the relation's data
item up in the paragraph's entity list (first match, `{}` default), then emit
the denormalized row with empty-string categories on a failed lookup. -/
def flatten_one (policy : String) (p : ParaRecord) (rel : RelRow) : FlatRow :=
  let ec := p.entities.find? (fun e => PyScalar.s e.item == rel.item)
  { policy := policy
    idx := p.idx
    item := rel.item
    cat1 := ((ec.map EntityRow.cat1).getD "")
    cat2 := ((ec.map EntityRow.cat2).getD "")
    scene1 := rel.scene.getD 0 (PyScalar.s "")
    scene2 := rel.scene.getD 1 (PyScalar.s "")
    scene3 := rel.scene.getD 2 (PyScalar.s "")
    action := rel.action }

/-- `flatten_results` from `main.py`: paragraph order, then relation order. -/
def flatten_results (policy : String) (content : List ParaRecord) :
    List FlatRow :=
  content.flatMap (fun p => p.relations.map (flatten_one policy p))

/-! ## Document loop of `process_policies`

A row's policy-text cell either holds a string or some other value (NaN,
number, …).  Rows keep their original dataframe index, so skipping a row does
not renumber the following ones; with no `name` column the policy name is
`政策_{index+1}`. -/

inductive Cell where
  | str (s : String)
  | other
deriving DecidableEq

/-- The row guard `isinstance(policy_text, str) and policy_text.strip()`:
returns the text when the row is processed, `none` when it is skipped. -/
def valid_policy_text : Cell → Option String
  | .str s => if pyStrip isPySpace s.toList = [] then none else some s
  | .other => none

/-- Splitting as used by the document loop, on `String`. -/
def split_paragraphs (s : String) : List String :=
  (split_by_detected_level s.toList).map (fun l => String.mk l)

/-- The default policy name for row index `i` (`f"政策_{index+1}"`). -/
def policy_name_of (i : Nat) : String := "政策_" ++ toString (i + 1)

/-- The document loop of `process_policies`: per valid row, split, run the
paragraph loop, append the nested record and extend the flat records. -/
def process_policies_aux (st : Stages) :
    Nat → List Cell → List (String × List ParaRecord) × List FlatRow
  | _, [] => ([], [])
  | i, c :: rest =>
    let acc := process_policies_aux st (i + 1) rest
    match valid_policy_text c with
    | none => acc
    | some text =>
      let name := policy_name_of i
      let content := process_paragraphs st (split_paragraphs text)
      ((name, content) :: acc.1, flatten_results name content ++ acc.2)

def process_policies (st : Stages) (rows : List Cell) :
    List (String × List ParaRecord) × List FlatRow :=
  process_policies_aux st 0 rows

/-! ## Helper lemmas about the string preprocessing -/

theorem dropWhile_eq_self_of_head {f : Char → Bool} {l : List Char} {c : Char}
    (h : l.head? = some c) (hf : f c = false) : l.dropWhile f = l := by
  cases l with
  | nil => simp at h
  | cons a t =>
    obtain rfl : a = c := by simpa using h
    rw [List.dropWhile_cons_of_neg (by simp [hf])]

theorem dropWhile_append_of_left_stable {f : Char → Bool} {p r : List Char}
    (hr : r.dropWhile f = r) : (p ++ r).dropWhile f = p.dropWhile f ++ r := by
  rw [List.dropWhile_append]
  split
  next hemp => rw [hr, List.isEmpty_iff.1 hemp]; rfl
  next => rfl

/-- Effect of Python `strip` on a string of shape `p ++ v ++ q` when `v`
starts and ends with unstrippable characters: only `p` and `q` are eroded. -/
theorem pyStrip_append (f : Char → Bool) (p v q : List Char) (ch cl : Char)
    (hh : v.head? = some ch) (hfh : f ch = false)
    (hl : v.getLast? = some cl) (hfl : f cl = false) :
    ∃ p', pyStrip f (p ++ v ++ q) = p' ++ v ++ (q.reverse.dropWhile f).reverse ∧
      p' <:+ p := by
  have hv : v ≠ [] := by rintro rfl; simp at hh
  have h1 : (v ++ q).dropWhile f = v ++ q := by
    rcases v with _ | ⟨a, t⟩
    · simp at hh
    · obtain rfl : a = ch := by simpa using hh
      rw [List.cons_append, List.dropWhile_cons_of_neg (by simp [hfh])]
  have h3 : (v.reverse ++ (p.dropWhile f).reverse).dropWhile f
      = v.reverse ++ (p.dropWhile f).reverse := by
    rcases hrv : v.reverse with _ | ⟨b, tb⟩
    · exact absurd (by simpa using congrArg List.reverse hrv) hv
    · obtain rfl : b = cl := by
        have hb : v.getLast? = some b := by rw [← List.head?_reverse, hrv]; rfl
        simpa using hb.symm.trans hl
      rw [List.cons_append, List.dropWhile_cons_of_neg (by simp [hfl])]
  refine ⟨p.dropWhile f, ?_, List.dropWhile_suffix f⟩
  show (((p ++ v ++ q).dropWhile f).reverse.dropWhile f).reverse = _
  rw [List.append_assoc, dropWhile_append_of_left_stable h1]
  have hrev : (p.dropWhile f ++ (v ++ q)).reverse
      = q.reverse ++ (v.reverse ++ (p.dropWhile f).reverse) := by
    simp [List.reverse_append, List.append_assoc]
  rw [hrev, dropWhile_append_of_left_stable h3]
  simp [List.reverse_append, List.append_assoc]

theorem open_cases {c : Char} (hc : isOpenB c = true) : c = '{' ∨ c = '[' := by
  simpa [isOpenB] using hc

theorem stripJsonTag_open1 {c : Char} (hc : isOpenB c = true) (l : List Char) :
    stripJsonTag (c :: l) = c :: l := by
  rcases l with _ | ⟨b, l2⟩
  · rfl
  rcases l2 with _ | ⟨b2, l3⟩
  · rfl
  rcases l3 with _ | ⟨b3, l4⟩
  · rfl
  simp only [stripJsonTag]
  rw [if_neg]
  rcases open_cases hc with rfl | rfl <;> exact fun h => absurd h.1 (by decide)

theorem stripJsonTag_open2 {c : Char} (hc : isOpenB c = true) (w : Char) (l : List Char) :
    stripJsonTag (w :: c :: l) = w :: c :: l := by
  rcases l with _ | ⟨b, l2⟩
  · rfl
  rcases l2 with _ | ⟨b2, l3⟩
  · rfl
  simp only [stripJsonTag]
  rw [if_neg]
  rcases open_cases hc with rfl | rfl <;> exact fun h => absurd h.2.1 (by decide)

theorem stripJsonTag_open3 {c : Char} (hc : isOpenB c = true) (w x : Char) (l : List Char) :
    stripJsonTag (w :: x :: c :: l) = w :: x :: c :: l := by
  rcases l with _ | ⟨b, l2⟩
  · rfl
  simp only [stripJsonTag]
  rw [if_neg]
  rcases open_cases hc with rfl | rfl <;> exact fun h => absurd h.2.2.1 (by decide)

theorem stripJsonTag_open4 {c : Char} (hc : isOpenB c = true) (w x y : Char) (l : List Char) :
    stripJsonTag (w :: x :: y :: c :: l) = w :: x :: y :: c :: l := by
  simp only [stripJsonTag]
  rw [if_neg]
  rcases open_cases hc with rfl | rfl <;> exact fun h => absurd h.2.2.2 (by decide)

theorem stripJsonTag_append (p v q : List Char) (c : Char)
    (hv : v.head? = some c) (hc : isOpenB c = true)
    (hp : ∀ x ∈ p, isOpenB x = false) :
    ∃ p', stripJsonTag (p ++ v ++ q) = p' ++ v ++ q ∧
      ∀ x ∈ p', isOpenB x = false := by
  rcases v with _ | ⟨a, t⟩
  · simp at hv
  obtain rfl : a = c := by simpa using hv
  rcases p with _ | ⟨w1, p1⟩
  · exact ⟨[], by simpa using stripJsonTag_open1 hc (t ++ q), by simp⟩
  rcases p1 with _ | ⟨w2, p2⟩
  · exact ⟨[w1], by simpa using stripJsonTag_open2 hc w1 (t ++ q), by
      intro x hx
      have : x = w1 := by simpa using hx
      subst this; exact hp _ (by simp)⟩
  rcases p2 with _ | ⟨w3, p3⟩
  · exact ⟨[w1, w2], by simpa using stripJsonTag_open3 hc w1 w2 (t ++ q), by
      intro x hx
      have : x = w1 ∨ x = w2 := by simpa using hx
      rcases this with rfl | rfl <;> exact hp _ (by simp)⟩
  rcases p3 with _ | ⟨w4, p4⟩
  · exact ⟨[w1, w2, w3], by simpa using stripJsonTag_open4 hc w1 w2 w3 (t ++ q), by
      intro x hx
      have : x = w1 ∨ x = w2 ∨ x = w3 := by simpa using hx
      rcases this with rfl | rfl | rfl <;> exact hp _ (by simp)⟩
  · have hshape : (w1 :: w2 :: w3 :: w4 :: p4) ++ (a :: t) ++ q
        = w1 :: w2 :: w3 :: w4 :: (p4 ++ (a :: t) ++ q) := by simp
    rw [hshape]
    simp only [stripJsonTag]
    split
    · exact ⟨p4, rfl, fun x hx => hp _ (by simp [hx])⟩
    · exact ⟨w1 :: w2 :: w3 :: w4 :: p4, by simp, hp⟩

theorem stripFence_open1 {c : Char} (hc : isOpenB c = true) (l : List Char) :
    stripFence (c :: l) = c :: l := by
  rcases l with _ | ⟨b, l2⟩
  · rfl
  rcases l2 with _ | ⟨b2, l3⟩
  · rfl
  simp only [stripFence]
  rw [if_neg]
  rcases open_cases hc with rfl | rfl <;> exact fun h => absurd h.1 (by decide)

theorem stripFence_open2 {c : Char} (hc : isOpenB c = true) (w : Char) (l : List Char) :
    stripFence (w :: c :: l) = w :: c :: l := by
  rcases l with _ | ⟨b, l2⟩
  · rfl
  simp only [stripFence]
  rw [if_neg]
  rcases open_cases hc with rfl | rfl <;> exact fun h => absurd h.2.1 (by decide)

theorem stripFence_open3 {c : Char} (hc : isOpenB c = true) (w x : Char) (l : List Char) :
    stripFence (w :: x :: c :: l) = w :: x :: c :: l := by
  simp only [stripFence]
  rw [if_neg]
  rcases open_cases hc with rfl | rfl <;> exact fun h => absurd h.2.2 (by decide)

theorem stripFence_append (p v q : List Char) (c : Char)
    (hv : v.head? = some c) (hc : isOpenB c = true)
    (hp : ∀ x ∈ p, isOpenB x = false) :
    ∃ p', stripFence (p ++ v ++ q) = p' ++ v ++ q ∧
      ∀ x ∈ p', isOpenB x = false := by
  rcases v with _ | ⟨a, t⟩
  · simp at hv
  obtain rfl : a = c := by simpa using hv
  rcases p with _ | ⟨w1, p1⟩
  · exact ⟨[], by simpa using stripFence_open1 hc (t ++ q), by simp⟩
  rcases p1 with _ | ⟨w2, p2⟩
  · exact ⟨[w1], by simpa using stripFence_open2 hc w1 (t ++ q), by
      intro x hx
      have : x = w1 := by simpa using hx
      subst this; exact hp _ (by simp)⟩
  rcases p2 with _ | ⟨w3, p3⟩
  · exact ⟨[w1, w2], by simpa using stripFence_open3 hc w1 w2 (t ++ q), by
      intro x hx
      have : x = w1 ∨ x = w2 := by simpa using hx
      rcases this with rfl | rfl <;> exact hp _ (by simp)⟩
  · have hshape : (w1 :: w2 :: w3 :: p3) ++ (a :: t) ++ q
        = w1 :: w2 :: w3 :: (p3 ++ (a :: t) ++ q) := by simp
    rw [hshape]
    simp only [stripFence]
    split
    · exact stripJsonTag_append p3 (a :: t) q a (by simp) hc
        (fun x hx => hp _ (by simp [hx]))
    · exact ⟨w1 :: w2 :: w3 :: p3, by simp, hp⟩

/-! ## Helper lemmas about the bracket scan -/

theorem scanLoop_cons_open {c : Char} (hc : isOpenB c = true)
    (σ acc rest : List Char) :
    scanLoop σ acc (c :: rest) = scanLoop (c :: σ) (c :: acc) rest := by
  simp [scanLoop, hc]

theorem scanLoop_cons_other {c : Char} (hc1 : isOpenB c = false)
    (hc2 : isCloseB c = false) (σ acc rest : List Char) :
    scanLoop σ acc (c :: rest) = scanLoop σ (c :: acc) rest := by
  simp [scanLoop, hc1, hc2]

theorem scanLoop_close_obj (σ acc rest : List Char) :
    scanLoop ('{' :: σ) acc ('}' :: rest) =
      if σ.isEmpty then some ('}' :: acc).reverse
      else scanLoop σ ('}' :: acc) rest := by
  simp [scanLoop, isOpenB, isCloseB]

theorem scanLoop_close_arr (σ acc rest : List Char) :
    scanLoop ('[' :: σ) acc (']' :: rest) =
      if σ.isEmpty then some (']' :: acc).reverse
      else scanLoop σ (']' :: acc) rest := by
  simp [scanLoop, isOpenB, isCloseB]

/-- Scanning a balanced segment with a non-empty stack just consumes it. -/
theorem scanLoop_bal {inner : List Char} (h : Bal inner) :
    ∀ (σ acc rest : List Char), σ ≠ [] →
      scanLoop σ acc (inner ++ rest) = scanLoop σ (inner.reverse ++ acc) rest := by
  induction h with
  | nil => intro σ acc rest _; simp
  | @ch c l hc1 hc2 _ ih =>
    intro σ acc rest hσ
    rw [List.cons_append, scanLoop_cons_other hc1 hc2, ih σ (c :: acc) rest hσ]
    simp [List.append_assoc]
  | @obj inner l hinner hl ih1 ih2 =>
    intro σ acc rest hσ
    have hshape : ('{' :: inner ++ '}' :: l) ++ rest
        = '{' :: (inner ++ ('}' :: (l ++ rest))) := by simp
    rw [hshape, scanLoop_cons_open (by decide),
      ih1 ('{' :: σ) ('{' :: acc) ('}' :: (l ++ rest)) (by simp),
      scanLoop_close_obj, if_neg (by simpa using hσ),
      ih2 σ ('}' :: (inner.reverse ++ '{' :: acc)) rest hσ]
    simp [List.append_assoc]
  | @arr inner l hinner hl ih1 ih2 =>
    intro σ acc rest hσ
    have hshape : ('[' :: inner ++ ']' :: l) ++ rest
        = '[' :: (inner ++ (']' :: (l ++ rest))) := by simp
    rw [hshape, scanLoop_cons_open (by decide),
      ih1 ('[' :: σ) ('[' :: acc) (']' :: (l ++ rest)) (by simp),
      scanLoop_close_arr, if_neg (by simpa using hσ),
      ih2 σ (']' :: (inner.reverse ++ '[' :: acc)) rest hσ]
    simp [List.append_assoc]

/-- Scanning from an empty stack returns exactly the balanced value at the
head of the input. -/
theorem scanLoop_value {v : List Char} (h : BalValue v) (acc q : List Char) :
    scanLoop [] acc (v ++ q) = some (acc.reverse ++ v) := by
  rcases h with ⟨inner, hinner, rfl⟩ | ⟨inner, hinner, rfl⟩
  · have hshape : ('{' :: inner ++ ['}']) ++ q = '{' :: (inner ++ ('}' :: q)) := by
      simp
    rw [hshape, scanLoop_cons_open (by decide),
      scanLoop_bal hinner ['{'] ('{' :: acc) ('}' :: q) (by simp),
      scanLoop_close_obj, if_pos (by simp)]
    simp [List.append_assoc]
  · have hshape : ('[' :: inner ++ [']']) ++ q = '[' :: (inner ++ (']' :: q)) := by
      simp
    rw [hshape, scanLoop_cons_open (by decide),
      scanLoop_bal hinner ['['] ('[' :: acc) (']' :: q) (by simp),
      scanLoop_close_arr, if_pos (by simp)]
    simp [List.append_assoc]

/-- An opened but never closed balanced candidate exhausts the input. -/
theorem scanLoop_unterminated {inner : List Char} (h : Bal inner) {c : Char}
    (hc : isOpenB c = true) (acc : List Char) :
    scanLoop [] acc (c :: inner) = none := by
  rw [scanLoop_cons_open hc]
  have h2 := scanLoop_bal h [c] (c :: acc) [] (by simp)
  rw [List.append_nil] at h2
  rw [h2]
  simp [scanLoop]

theorem close_cases {c : Char} (hc : isCloseB c = true) : c = '}' ∨ c = ']' := by
  simpa [isCloseB] using hc

theorem BalValue_head {v : List Char} (h : BalValue v) :
    ∃ c, v.head? = some c ∧ isOpenB c = true := by
  rcases h with ⟨inner, _, rfl⟩ | ⟨inner, _, rfl⟩
  · exact ⟨'{', rfl, by decide⟩
  · exact ⟨'[', rfl, by decide⟩

theorem BalValue_getLast {v : List Char} (h : BalValue v) :
    ∃ c, v.getLast? = some c ∧ isCloseB c = true := by
  rcases h with ⟨inner, _, rfl⟩ | ⟨inner, _, rfl⟩
  · exact ⟨'}', by
      rw [show '{' :: inner ++ ['}'] = ('{' :: inner) ++ ['}'] by simp,
        List.getLast?_concat], by decide⟩
  · exact ⟨']', by
      rw [show '[' :: inner ++ [']'] = ('[' :: inner) ++ [']'] by simp,
        List.getLast?_concat], by decide⟩

/-- The whole preprocessing of `extract_first_json` (whitespace strip, fence
removal, tick strip, skip to the first open bracket) leaves a value that
starts with an unstrippable open bracket and ends with an unstrippable
character intact and positions the scan exactly at it. -/
theorem extract_preprocess (p v q : List Char) (ch cl : Char)
    (hh : v.head? = some ch) (hc : isOpenB ch = true)
    (hl : v.getLast? = some cl)
    (hcl1 : isPySpace cl = false) (hcl2 : isTickStrip cl = false)
    (hp : ∀ x ∈ p, isOpenB x = false) :
    ∃ q', (pyStrip isTickStrip (stripFence (pyStrip isPySpace
        (p ++ v ++ q)))).dropWhile (fun c => !(isOpenB c)) = v ++ q' ∧
      (q = [] → q' = []) := by
  have hchsp : isPySpace ch = false := by
    rcases open_cases hc with rfl | rfl <;> decide
  have hchtk : isTickStrip ch = false := by
    rcases open_cases hc with rfl | rfl <;> decide
  obtain ⟨p1, e1, hs1⟩ := pyStrip_append isPySpace p v q ch cl hh hchsp hl hcl1
  have hp1 : ∀ x ∈ p1, isOpenB x = false := fun x hx => hp x (hs1.sublist.subset hx)
  obtain ⟨p2, e2, hp2⟩ :=
    stripFence_append p1 v ((q.reverse.dropWhile isPySpace).reverse) ch hh hc hp1
  obtain ⟨p3, e3, hs3⟩ :=
    pyStrip_append isTickStrip p2 v ((q.reverse.dropWhile isPySpace).reverse) ch cl
      hh hchtk hl hcl2
  have hp3 : ∀ x ∈ p3, isOpenB x = false := fun x hx => hp2 x (hs3.sublist.subset hx)
  refine ⟨((q.reverse.dropWhile isPySpace).reverse.reverse.dropWhile
      isTickStrip).reverse, ?_, ?_⟩
  · rw [e1, e2, e3, List.append_assoc, List.dropWhile_append]
    have hemp : p3.dropWhile (fun c => !(isOpenB c)) = [] :=
      List.dropWhile_eq_nil_iff.2 (by intro x hx; simp [hp3 x hx])
    rw [hemp]
    simp only [List.isEmpty_nil, if_true]
    exact dropWhile_eq_self_of_head (by
      rcases v with _ | ⟨a, t⟩
      · simp at hh
      · simpa using hh) (by simp [hc])
  · rintro rfl
    simp

/-- C3 (amended).  For every larger string in which every character before
the candidate value is not an open bracket and the value is a balanced
top-level object or array whose brace and bracket characters occur only as
structural delimiters (`BalValue`), `extract_first_json` returns exactly that
value; a candidate that is opened but never terminated (an open bracket
followed by a balanced sequence, with no closing bracket before the end of
input) yields `none`. -/
theorem extract_first_json_amended :
    (∀ p v q : List Char, (∀ x ∈ p, isOpenB x = false) → BalValue v →
        extract_first_json (p ++ v ++ q) = some v) ∧
    (∀ (p inner : List Char) (c cl : Char), (∀ x ∈ p, isOpenB x = false) →
        isOpenB c = true → Bal inner →
        (c :: inner).getLast? = some cl →
        isPySpace cl = false → isTickStrip cl = false →
        extract_first_json (p ++ (c :: inner)) = none) := by
  constructor
  · intro p v q hp hv
    obtain ⟨ch, hh, hc⟩ := BalValue_head hv
    obtain ⟨cl, hl, hclose⟩ := BalValue_getLast hv
    have hcl1 : isPySpace cl = false := by
      rcases close_cases hclose with rfl | rfl <;> decide
    have hcl2 : isTickStrip cl = false := by
      rcases close_cases hclose with rfl | rfl <;> decide
    obtain ⟨q', hpre, _⟩ := extract_preprocess p v q ch cl hh hc hl hcl1 hcl2 hp
    have hvne : v ≠ [] := by rintro rfl; simp at hh
    simp only [extract_first_json]
    rw [hpre, if_neg (by
      rcases v with _ | ⟨a, t⟩
      · exact absurd rfl hvne
      · simp)]
    rw [scanLoop_value hv [] q']
    simp
  · intro p inner c cl hp hc hbal hl hcl1 hcl2
    obtain ⟨q', hpre, hqnil⟩ := extract_preprocess p (c :: inner) [] c cl rfl hc hl
      hcl1 hcl2 hp
    rw [hqnil rfl, List.append_nil] at hpre
    rw [List.append_nil] at hpre
    simp only [extract_first_json]
    rw [show p ++ (c :: inner) = p ++ (c :: inner) ++ [] by simp] at hpre ⊢
    rw [List.append_nil] at hpre ⊢
    rw [hpre, if_neg (by simp)]
    exact scanLoop_unterminated hbal hc []

/-- The well-formed JSON text `{"a": "]"}` (a bracket character inside a
string literal), as a character list. -/
def c3json : List Char := ['{', '"', 'a', '"', ':', ' ', '"', ']', '"', '}']

/-- C3 (counterexample).  `c3json` is the well-formed JSON value
`{"a": "]"}` — `json.loads` accepts it — embedded between prose characters,
yet `extract_first_json` returns nothing, because the scan treats the `]`
inside the string literal as a (mismatched) structural bracket.  So the claim
does not hold for every well-formed embedded JSON value. -/
theorem extract_first_json_cex :
    extract_first_json (['x'] ++ c3json ++ ['y']) = none ∧
    extract_first_json c3json = none := ⟨rfl, rfl⟩

/-- C3 (witness): the amended theorem applied at concrete inputs. -/
theorem extract_first_json_amended_witness :
    extract_first_json (['x'] ++ ['{', 'a', '}'] ++ ['y']) = some ['{', 'a', '}'] ∧
    extract_first_json (['x'] ++ ('{' :: ['a'])) = none := by
  constructor
  · exact extract_first_json_amended.1 ['x'] ['{', 'a', '}'] ['y'] (by decide)
      (Or.inl ⟨['a'], Bal.ch (by decide) (by decide) Bal.nil, rfl⟩)
  · exact extract_first_json_amended.2 ['x'] ['a'] '{' 'a' (by decide) (by decide)
      (Bal.ch (by decide) (by decide) Bal.nil) (by decide) (by decide) (by decide)

/-- The spec's own depth-1 scenario input. -/
def depthBugInput : List Char :=
  ("1. 登录\n用户使用手机号登录时收集手机号码。\n2. 支付\n用户支付时使用银行卡号。").toList

/-- C2 (code bug).  On the spec's scenario input the code computes numbering
depth 2, not 1: the pattern `\d+(?:\.\d+)*[、.．．]?` matches `"1."` with its
*terminating* dot, and `detect_min_level` counts that dot as a separator
(`m.count('.') + 1`).  The level-2 regex `\d+\.\d+` then matches nothing, so
the whole document comes back as a single paragraph instead of the two
paragraphs the spec (and the function's own docstring, which lists `1.` as a
first-level marker) expects. -/
theorem detect_depth_code_bug :
    detect_min_level depthBugInput = 2 ∧
    split_by_detected_level depthBugInput = [depthBugInput] := by
  constructor
  · rfl
  · rfl

/-- A one-match document with text after the numbering marker. -/
def tailDupInput : List Char := ("1、登录").toList

/-- C4 (code bug).  The final paragraph already runs to the end of the text,
but `split_by_detected_level` then appends the text after the last *match*
(`last_end = matches[-1].end()`) again as a separate paragraph, duplicating
it (the comment above that code says it checks for content after the last
*paragraph*).  The flattened output has more characters than the document, so
the trimmed concatenation cannot be a subsequence and the two paragraphs
overlap. -/
theorem split_tail_duplication_code_bug :
    split_by_detected_level tailDupInput = [("1、登录").toList, ("登录").toList] ∧
    ¬ (split_by_detected_level tailDupInput).flatten.Sublist tailDupInput := by
  constructor
  · rfl
  · decide

/-- A document with non-empty text before the first numbering match. -/
def headDropInput : List Char := ("前言\n1、登录").toList

/-- C5 (counterexample).  The text `前言` before the first match is not
preserved: the first paragraph starts at the first match, so no output
paragraph is (or contains) the head text. -/
theorem split_head_dropped_cex :
    split_by_detected_level headDropInput = [("1、登录").toList, ("登录").toList] ∧
    ("前言").toList ∉ split_by_detected_level headDropInput := by
  constructor
  · rfl
  · decide

/-! ## Helper lemmas about the paragraph splitter -/

theorem finditerAux_mem_bounds (body : List Char → Option Nat) :
    ∀ (fuel : Nat) (s : List Char) (pos : Nat) (m : Nat × Nat),
      m ∈ finditerAux body fuel s pos → pos ≤ m.1 ∧ m.1 ≤ m.2 := by
  intro fuel
  induction fuel with
  | zero => intro s pos m hm; simp [finditerAux] at hm
  | succ fuel ih =>
    intro s pos m hm
    cases s with
    | nil => simp [finditerAux] at hm
    | cons c rest =>
      rcases hhit : anchorHit body pos c rest with _ | L
      · rw [finditerAux, hhit] at hm
        have := ih rest (pos + 1) m hm
        omega
      · rw [finditerAux, hhit] at hm
        rcases List.mem_cons.1 hm with rfl | hm'
        · simp
        · have := ih _ (pos + max L 1) m hm'
          constructor
          · omega
          · exact this.2

theorem finditerAux_pairwise (body : List Char → Option Nat) :
    ∀ (fuel : Nat) (s : List Char) (pos : Nat),
      (finditerAux body fuel s pos).Pairwise (fun a b => a.1 ≤ b.1) := by
  intro fuel
  induction fuel with
  | zero => intro s pos; simp [finditerAux]
  | succ fuel ih =>
    intro s pos
    cases s with
    | nil => simp [finditerAux]
    | cons c rest =>
      rcases hhit : anchorHit body pos c rest with _ | L
      · rw [finditerAux, hhit]
        exact ih rest (pos + 1)
      · rw [finditerAux, hhit]
        refine List.Pairwise.cons ?_ (ih _ (pos + max L 1))
        intro b hb
        have := finditerAux_mem_bounds body fuel _ (pos + max L 1) b hb
        simp only
        omega

theorem mem_paraSlices (text : List Char) :
    ∀ (ms : List (Nat × Nat)) (p : List Char), p ∈ paraSlices text ms →
      ∃ m ∈ ms, ∃ n, p = pyStrip isPySpace ((text.drop m.1).take n) := by
  intro ms
  induction ms with
  | nil => intro p hp; simp [paraSlices] at hp
  | cons m tail ih =>
    intro p hp
    cases tail with
    | nil =>
      have : p = pyStrip isPySpace ((text.drop m.1).take (text.length - m.1)) := by
        simpa [paraSlices] using hp
      exact ⟨m, by simp, text.length - m.1, this⟩
    | cons m' rest =>
      simp only [paraSlices] at hp
      rcases List.mem_cons.1 hp with rfl | hp'
      · exact ⟨m, by simp, m'.1 - m.1, rfl⟩
      · obtain ⟨mm, hmm, n, hn⟩ := ih p hp'
        exact ⟨mm, by simp [hmm], n, hn⟩

theorem getLast?_filter_concat (l : List (List Char)) (a : List Char)
    (ha : (!a.isEmpty) = true) :
    ((l ++ [a]).filter (fun p => !p.isEmpty)).getLast? = some a := by
  rw [List.filter_append]
  have h1 : [a].filter (fun p => !p.isEmpty) = [a] := by simp [List.filter, ha]
  rw [h1, List.getLast?_concat]

/-- C5 (amended).  When the depth regex matches at least once: any non-empty
trimmed text after the last match is preserved as the final output paragraph
(in addition to being part of the last numbered paragraph); text before the
first match, however, is dropped — every output paragraph is a trimmed slice
of the document starting at or after the first match's start position. -/
theorem split_head_tail_amended (text : List Char) (m0 : Nat × Nat)
    (ms' : List (Nat × Nat))
    (h : finditer (build_level_regex (detect_min_level text)) text = m0 :: ms') :
    (∀ p ∈ split_by_detected_level text,
        ∃ a n, m0.1 ≤ a ∧ p = pyStrip isPySpace ((text.drop a).take n)) ∧
    (pyStrip isPySpace
        (text.drop ((m0 :: ms').getLast (List.cons_ne_nil m0 ms')).2) ≠ [] →
      (split_by_detected_level text).getLast? =
        some (pyStrip isPySpace
          (text.drop ((m0 :: ms').getLast (List.cons_ne_nil m0 ms')).2))) := by
  have hbounds : ∀ m ∈ m0 :: ms', (0 : Nat) ≤ m.1 ∧ m.1 ≤ m.2 := by
    rw [← h]
    exact fun m hm => finditerAux_mem_bounds _ _ _ _ m hm
  have hpair : (m0 :: ms').Pairwise (fun a b => a.1 ≤ b.1) := by
    rw [← h]
    exact finditerAux_pairwise _ _ _ _
  have hstartle : ∀ m ∈ m0 :: ms', m0.1 ≤ m.1 := by
    intro m hm
    rcases List.mem_cons.1 hm with rfl | hm'
    · exact le_refl _
    · exact (List.pairwise_cons.1 hpair).1 m hm'
  have hLmem : (m0 :: ms').getLast (List.cons_ne_nil m0 ms') ∈ m0 :: ms' :=
    List.getLast_mem _
  have hm0L : m0.1 ≤ ((m0 :: ms').getLast (List.cons_ne_nil m0 ms')).2 :=
    le_trans (hstartle _ hLmem) (hbounds _ hLmem).2
  unfold split_by_detected_level
  rw [h]
  simp only [split_core]
  constructor
  · intro p hp
    have hp2 := (List.mem_filter.1 hp).1
    have hof : ∀ pp, pp ∈ paraSlices text (m0 :: ms') →
        ∃ a n, m0.1 ≤ a ∧ pp = pyStrip isPySpace ((text.drop a).take n) := by
      intro pp hpp
      obtain ⟨m, hm, n, hn⟩ := mem_paraSlices text (m0 :: ms') pp hpp
      exact ⟨m.1, n, hstartle m hm, hn⟩
    split at hp2
    · rcases List.mem_append.1 hp2 with hmem | hmem
      · exact hof p hmem
      · have hptail : p = pyStrip isPySpace
            (text.drop ((m0 :: ms').getLast (List.cons_ne_nil m0 ms')).2) := by
          simpa using hmem
        refine ⟨((m0 :: ms').getLast (List.cons_ne_nil m0 ms')).2,
          (text.drop ((m0 :: ms').getLast (List.cons_ne_nil m0 ms')).2).length,
          hm0L, ?_⟩
        rw [hptail, List.take_length]
    · exact hof p hp2
  · intro htail
    have hlt : ((m0 :: ms').getLast (List.cons_ne_nil m0 ms')).2 < text.length := by
      by_contra hge
      push_neg at hge
      have hnil : text.drop ((m0 :: ms').getLast (List.cons_ne_nil m0 ms')).2 = [] :=
        List.drop_eq_nil_iff.2 hge
      rw [hnil] at htail
      exact htail rfl
    rw [if_pos ⟨hlt, htail⟩]
    refine getLast?_filter_concat _ _ ?_
    rcases hsp : pyStrip isPySpace
        (text.drop ((m0 :: ms').getLast (List.cons_ne_nil m0 ms')).2) with _ | ⟨x, xs⟩
    · exact absurd hsp htail
    · simp

/-- C5 (witness): the amended theorem applied to the concrete document
`前言\n1、登录` (single match `(2, 5)`), giving the duplicated tail as the
final paragraph. -/
theorem split_head_tail_amended_witness :
    (split_by_detected_level headDropInput).getLast? = some (("登录").toList) := by
  have h := split_head_tail_amended headDropInput (2, 5) [] rfl
  have h2 := h.2 (by decide)
  exact h2.trans (by rfl)

/-! ## Helper lemmas about the classifier -/

theorem lookup_map_const {α β : Type} [DecidableEq α] (l : List α) (v : β)
    (e : α) (he : e ∈ l) :
    (l.map (fun x => (x, v))).lookup e = some v := by
  induction l with
  | nil => simp at he
  | cons a t ih =>
    by_cases hae : e = a
    · subst hae; simp [List.lookup]
    · simp only [List.map_cons, List.lookup]
      rw [show (e == a) = false from beq_eq_false_iff_ne.2 hae]
      exact ih (by rcases List.mem_cons.1 he with h | h; exact absurd h hae; exact h)

/-- C1 (amended).  For every non-empty input item list and every oracle
behaviour: every input item is a key of the result; if an attempt's response
is a non-empty mapping containing *all* input items it is returned unchanged
— including any extra keys it may carry — and otherwise (even if the oracle
resolved some of the items in a rejected partial response) every input item,
and only the input items, is mapped to the sentinel `("未分类", "未分类")`. -/
theorem classify_entities_amended (oracle : Nat → Classified)
    (entities : List String) (hne : entities ≠ []) :
    (∀ e ∈ entities, ((classify_entities oracle entities).lookup e).isSome) ∧
    (classify_response_ok entities (oracle 0) = true →
      classify_entities oracle entities = oracle 0) ∧
    (classify_response_ok entities (oracle 0) = false →
      classify_response_ok entities (oracle 1) = true →
      classify_entities oracle entities = oracle 1) ∧
    (classify_response_ok entities (oracle 0) = false →
      classify_response_ok entities (oracle 1) = false →
      (classify_entities oracle entities).map Prod.fst = entities ∧
      ∀ e ∈ entities,
        (classify_entities oracle entities).lookup e = some unclassified) := by
  have hemp : entities.isEmpty = false := by
    rcases entities with _ | ⟨a, t⟩
    · exact absurd rfl hne
    · rfl
  have hlook : ∀ (r : Classified), classify_response_ok entities r = true →
      ∀ e ∈ entities, (r.lookup e).isSome := by
    intro r hr e he
    have h2 : entities.all (fun e => (r.lookup e).isSome) = true := by
      unfold classify_response_ok at hr
      exact (Bool.and_eq_true _ _ ▸ hr).2
    exact List.all_eq_true.1 h2 e he
  constructor
  · intro e he
    unfold classify_entities
    rw [hemp]
    simp only [Bool.false_eq_true, if_false]
    by_cases h0 : classify_response_ok entities (oracle 0) = true
    · rw [if_pos h0]; exact hlook _ h0 e he
    · rw [if_neg h0]
      by_cases h1 : classify_response_ok entities (oracle 1) = true
      · rw [if_pos h1]; exact hlook _ h1 e he
      · rw [if_neg h1, lookup_map_const entities unclassified e he]; rfl
  refine ⟨?_, ?_, ?_⟩
  · intro h0
    unfold classify_entities
    rw [hemp]
    simp [h0]
  · intro h0 h1
    unfold classify_entities
    rw [hemp]
    simp only [Bool.false_eq_true, if_false]
    rw [if_neg (by simp [h0]), if_pos h1]
  · intro h0 h1
    unfold classify_entities
    rw [hemp]
    simp only [Bool.false_eq_true, if_false]
    rw [if_neg (by simp [h0]), if_neg (by simp [h1])]
    constructor
    · have hid : (Prod.fst ∘ fun e : String => (e, unclassified)) = id := rfl
      rw [List.map_map, hid, List.map_id]
    · exact fun e he => lookup_map_const entities unclassified e he

/-- The spec scenario's partial oracle: both attempts resolve only `姓名`. -/
def c1OracleA : Nat → Classified :=
  fun _ => [("姓名", ("个人基本资料", "个人基本资料"))]

/-- An oracle whose response carries all requested items plus an extra key. -/
def c1OracleB : Nat → Classified :=
  fun _ => [("姓名", ("个人基本资料", "个人基本资料")),
            ("设备型号", ("个人设备信息", "设备参数")),
            ("额外", ("个人基本资料", "个人基本资料"))]

/-- C1 (counterexample).  With the spec's own scenario oracle (it resolves
`姓名` in both attempts but never `设备型号`), the fallback maps *both* items
— including the resolved `姓名` — to `("未分类","未分类")`, so a resolved
item does not keep the oracle's classification; and with an all-items-plus-
extra response, the extra key `额外` is returned too, so the key set exceeds
the input item set. -/
theorem classify_entities_cex :
    (classify_entities c1OracleA ["姓名", "设备型号"]).lookup "姓名"
        = some ("未分类", "未分类") ∧
    "额外" ∈ (classify_entities c1OracleB ["姓名", "设备型号"]).map Prod.fst ∧
    "额外" ∉ ["姓名", "设备型号"] := by
  refine ⟨rfl, by decide, by decide⟩

/-- C1 (witness): the amended theorem applied to a concrete failing oracle. -/
theorem classify_entities_amended_witness :
    (classify_entities (fun _ => []) ["手机号码"]).map Prod.fst = ["手机号码"] ∧
    (classify_entities (fun _ => []) ["手机号码"]).lookup "手机号码"
      = some unclassified := by
  have h := classify_entities_amended (fun _ => []) ["手机号码"] (by decide)
  have h4 := h.2.2.2 (by decide) (by decide)
  exact ⟨h4.1, h4.2 "手机号码" (by decide)⟩

/-- C7 (amended).  `get_scene_tags` returns `[]` on oracle transport failure
and every element of a successful result is a JSON array of length at least 2
(arrays longer than 3, or with non-string content, are kept as well); but a
response in which no JSON can be parsed makes `robust_json_loads` raise, and
the exception propagates to `get_scene_tags`' caller (the paragraph loop). -/
theorem get_scene_tags_amended :
    (get_scene_tags none = .ok []) ∧
    (∀ e : Unit, get_scene_tags (some (.error e)) = .error e) ∧
    (∀ (resp : SceneResp) (l : List PyVal), get_scene_tags resp = .ok l →
        ∀ t ∈ l, ∃ xs, t = PyVal.list xs ∧ 2 ≤ xs.length) := by
  refine ⟨rfl, fun e => rfl, ?_⟩
  intro resp l hl t ht
  unfold get_scene_tags at hl
  cases hrec : recognize_scenarios_and_build_relations resp with
  | error e => rw [hrec] at hl; simp [Bind.bind, Except.bind] at hl
  | ok tri =>
    rw [hrec] at hl
    cases hit : pyIterate tri with
    | error e => simp [Bind.bind, Except.bind, hit] at hl
    | ok items =>
      simp only [Bind.bind, Except.bind, hit, pure, Except.pure, Except.ok.injEq] at hl
      subst hl
      have hpred := (List.mem_filter.1 ht).2
      cases t with
      | scalar v => simp at hpred
      | list xs => exact ⟨xs, rfl, by simpa using hpred⟩

/-- An oracle response parsing to `[["a","b","c","d","e"]]`. -/
def c7Resp : SceneResp :=
  some (.ok (.arr [.list [.s "a", .s "b", .s "c", .s "d", .s "e"]]))

/-- C7 (counterexample).  The filter keeps any list of length ≥ 2, so a
5-element row is returned although the claim allows only tuples of length 2
or 3; and a response without parseable JSON raises to the caller instead of
yielding a list. -/
theorem get_scene_tags_cex :
    get_scene_tags c7Resp
        = .ok [PyVal.list [.s "a", .s "b", .s "c", .s "d", .s "e"]] ∧
    ¬ ((5 : Nat) = 2 ∨ (5 : Nat) = 3) ∧
    get_scene_tags (some (.error ())) = .error () := by
  exact ⟨rfl, by decide, rfl⟩

/-- C7 (witness): the amended theorem applied at a concrete response. -/
theorem get_scene_tags_amended_witness :
    ∃ xs, PyVal.list [PyScalar.s "a", PyScalar.s "b"] = PyVal.list xs ∧
      2 ≤ xs.length := by
  exact get_scene_tags_amended.2.2 (some (.ok (.arr [.list [.s "a", .s "b"]])))
    [PyVal.list [.s "a", .s "b"]] rfl (PyVal.list [.s "a", .s "b"]) (by decide)

/-! ## Helper lemmas about the paragraph pipeline -/

theorem except_bind_ok {e a b : Type} (x : a) (f : a → Except e b) :
    (Except.ok x >>= f) = f x := rfl

theorem except_bind_error {e a b : Type} (x : e) (f : a → Except e b) :
    ((Except.error x : Except e a) >>= f) = Except.error x := rfl

theorem run_paragraph_ok_iff (st : Stages) (p : String) (i : Nat)
    (r : ParaRecord) :
    run_paragraph st p i = .ok r ↔
      ∃ tags ents classified raw,
        st.get_scene_tags p = .ok tags ∧ st.extract_entities p = .ok ents ∧
        st.classify_entities ents = .ok classified ∧
        st.analyze_actions p tags ents = .ok raw ∧
        r = { para := p, idx := i, sceneTags := tags,
              entities := build_entity_list ents classified,
              relations := convert_relations raw } := by
  constructor
  · intro h
    unfold run_paragraph at h
    cases h1 : st.get_scene_tags p with
    | error e => rw [h1, except_bind_error] at h; cases h
    | ok tags =>
      rw [h1, except_bind_ok] at h
      cases h2 : st.extract_entities p with
      | error e => rw [h2, except_bind_error] at h; cases h
      | ok ents =>
        rw [h2, except_bind_ok] at h
        cases h3 : st.classify_entities ents with
        | error e => rw [h3, except_bind_error] at h; cases h
        | ok classified =>
          rw [h3, except_bind_ok] at h
          cases h4 : st.analyze_actions p tags ents with
          | error e => rw [h4, except_bind_error] at h; cases h
          | ok raw =>
            rw [h4, except_bind_ok] at h
            simp only [pure, Except.pure, Except.ok.injEq] at h
            exact ⟨tags, ents, classified, raw, rfl, rfl, h3, h4, h.symm⟩
  · rintro ⟨tags, ents, classified, raw, h1, h2, h3, h4, rfl⟩
    unfold run_paragraph
    rw [h1, except_bind_ok, h2, except_bind_ok, h3, except_bind_ok, h4,
      except_bind_ok]
    rfl

theorem run_paragraph_idx (st : Stages) (p : String) (i : Nat) (r : ParaRecord)
    (h : run_paragraph st p i = .ok r) : r.idx = i := by
  obtain ⟨tags, ents, classified, raw, _, _, _, _, rfl⟩ :=
    (run_paragraph_ok_iff st p i r).1 h
  rfl

theorem mem_process_paragraphs_aux (st : Stages) :
    ∀ (l : List String) (k : Nat) (r : ParaRecord),
      r ∈ process_paragraphs_aux st k l ↔
        ∃ j, ∃ hj : j < l.length,
          run_paragraph st (l.get ⟨j, hj⟩) (k + j + 1) = .ok r := by
  intro l
  induction l with
  | nil => intro k r; simp [process_paragraphs_aux]
  | cons p rest ih =>
    intro k r
    simp only [process_paragraphs_aux]
    cases hrun : run_paragraph st p (k + 1) with
    | ok rec =>
      constructor
      · intro hr
        rcases List.mem_cons.1 hr with rfl | hr'
        · exact ⟨0, by simp, by simpa using hrun⟩
        · obtain ⟨j, hj, hok⟩ := (ih (k + 1) r).1 hr'
          refine ⟨j + 1, by simpa using Nat.succ_lt_succ hj, ?_⟩
          rw [show k + (j + 1) + 1 = k + 1 + j + 1 by omega]
          exact hok
      · rintro ⟨j, hj, hok⟩
        cases j with
        | zero =>
          have : Except.ok (ε := String) rec = Except.ok r := hrun.symm.trans hok
          exact List.mem_cons.2 (Or.inl (by simpa using this.symm))
        | succ j =>
          refine List.mem_cons.2 (Or.inr ((ih (k + 1) r).2
            ⟨j, by simp only [List.length_cons] at hj; omega, ?_⟩))
          rw [show k + 1 + j + 1 = k + (j + 1) + 1 by omega]
          exact hok
    | error e =>
      constructor
      · intro hr
        obtain ⟨j, hj, hok⟩ := (ih (k + 1) r).1 hr
        refine ⟨j + 1, by simpa using Nat.succ_lt_succ hj, ?_⟩
        rw [show k + (j + 1) + 1 = k + 1 + j + 1 by omega]
        exact hok
      · rintro ⟨j, hj, hok⟩
        cases j with
        | zero =>
          rw [show k + 0 + 1 = k + 1 by omega] at hok
          rw [show ((p :: rest).get ⟨0, hj⟩) = p from rfl] at hok
          rw [hrun] at hok
          cases hok
        | succ j =>
          refine (ih (k + 1) r).2 ⟨j, by simp only [List.length_cons] at hj; omega, ?_⟩
          rw [show k + 1 + j + 1 = k + (j + 1) + 1 by omega]
          exact hok

theorem process_policies_aux_mem (st : Stages) :
    ∀ (rows : List Cell) (k j : Nat) (hj : j < rows.length) (t : String),
      valid_policy_text (rows.get ⟨j, hj⟩) = some t →
      (policy_name_of (k + j), process_paragraphs st (split_paragraphs t))
        ∈ (process_policies_aux st k rows).1 := by
  intro rows
  induction rows with
  | nil => intro k j hj t _; simp at hj
  | cons c rest ih =>
    intro k j hj t hv
    cases j with
    | zero =>
      have hvc : valid_policy_text c = some t := hv
      simp only [process_policies_aux, hvc]
      exact List.mem_cons.2 (Or.inl (by simp))
    | succ j =>
      have hj' : j < rest.length := by simp only [List.length_cons] at hj; omega
      have hmem := ih (k + 1) j hj' t hv
      rw [show k + 1 + j = k + (j + 1) by omega] at hmem
      simp only [process_policies_aux]
      cases hvc : valid_policy_text c with
      | none => exact hmem
      | some text => exact List.mem_cons.2 (Or.inr hmem)

theorem process_policies_aux_origin (st : Stages) :
    ∀ (rows : List Cell) (k : Nat),
      (∀ entry ∈ (process_policies_aux st k rows).1,
        ∃ j, ∃ hj : j < rows.length, ∃ t,
          valid_policy_text (rows.get ⟨j, hj⟩) = some t ∧
          entry = (policy_name_of (k + j),
            process_paragraphs st (split_paragraphs t))) ∧
      (∀ f ∈ (process_policies_aux st k rows).2,
        ∃ j, ∃ hj : j < rows.length, ∃ t,
          valid_policy_text (rows.get ⟨j, hj⟩) = some t ∧
          f ∈ flatten_results (policy_name_of (k + j))
            (process_paragraphs st (split_paragraphs t))) := by
  intro rows
  induction rows with
  | nil => intro k; constructor <;> intro x hx <;> simp [process_policies_aux] at hx
  | cons c rest ih =>
    intro k
    constructor
    · intro entry hentry
      simp only [process_policies_aux] at hentry
      cases hvc : valid_policy_text c with
      | none =>
        rw [hvc] at hentry
        obtain ⟨j, hj, t, hv, he⟩ := (ih (k + 1)).1 entry hentry
        refine ⟨j + 1, by simp only [List.length_cons]; omega, t, hv, ?_⟩
        rw [show k + (j + 1) = k + 1 + j by omega]
        exact he
      | some text =>
        rw [hvc] at hentry
        rcases List.mem_cons.1 hentry with rfl | hentry'
        · exact ⟨0, by simp, text, hvc, by simp⟩
        · obtain ⟨j, hj, t, hv, he⟩ := (ih (k + 1)).1 entry hentry'
          refine ⟨j + 1, by simp only [List.length_cons]; omega, t, hv, ?_⟩
          rw [show k + (j + 1) = k + 1 + j by omega]
          exact he
    · intro f hf
      simp only [process_policies_aux] at hf
      cases hvc : valid_policy_text c with
      | none =>
        rw [hvc] at hf
        obtain ⟨j, hj, t, hv, he⟩ := (ih (k + 1)).2 f hf
        refine ⟨j + 1, by simp only [List.length_cons]; omega, t, hv, ?_⟩
        rw [show k + (j + 1) = k + 1 + j by omega]
        exact he
      | some text =>
        rw [hvc] at hf
        rcases List.mem_append.1 hf with hleft | hright
        · exact ⟨0, by simp, text, hvc, by simpa using hleft⟩
        · obtain ⟨j, hj, t, hv, he⟩ := (ih (k + 1)).2 f hright
          refine ⟨j + 1, by simp only [List.length_cons]; omega, t, hv, ?_⟩
          rw [show k + (j + 1) = k + 1 + j by omega]
          exact he

/-- C6.  A paragraph whose pipeline (any of its stages) raises is omitted
from the record list; every paragraph whose pipeline succeeds is recorded,
whatever happens to its siblings; every record originates from some
paragraph's successful run; and every valid document row is processed and
recorded regardless of stage failures inside it. -/
theorem process_paragraphs_isolation (st : Stages) (paras : List String) :
    (∀ r ∈ process_paragraphs st paras, ∃ j, ∃ hj : j < paras.length,
        run_paragraph st (paras.get ⟨j, hj⟩) (j + 1) = .ok r) ∧
    (∀ (j : Nat) (hj : j < paras.length) (r : ParaRecord),
        run_paragraph st (paras.get ⟨j, hj⟩) (j + 1) = .ok r →
        r ∈ process_paragraphs st paras) ∧
    (∀ (j : Nat) (hj : j < paras.length),
        (run_paragraph st (paras.get ⟨j, hj⟩) (j + 1)).isOk = false →
        ∀ r ∈ process_paragraphs st paras, r.idx ≠ j + 1) ∧
    (∀ (rows : List Cell) (j : Nat) (hj : j < rows.length) (t : String),
        valid_policy_text (rows.get ⟨j, hj⟩) = some t →
        (policy_name_of j, process_paragraphs st (split_paragraphs t))
          ∈ (process_policies st rows).1) := by
  refine ⟨?_, ?_, ?_, ?_⟩
  · intro r hr
    obtain ⟨j, hj, hok⟩ := (mem_process_paragraphs_aux st paras 0 r).1 hr
    exact ⟨j, hj, by simpa using hok⟩
  · intro j hj r hok
    exact (mem_process_paragraphs_aux st paras 0 r).2 ⟨j, hj, by simpa using hok⟩
  · intro j hj hfail r hr hidx
    obtain ⟨j', hj', hok⟩ := (mem_process_paragraphs_aux st paras 0 r).1 hr
    have hidx' : r.idx = 0 + j' + 1 := run_paragraph_idx st _ _ r hok
    have : j' = j := by omega
    subst this
    rw [show (0 : Nat) + j' + 1 = j' + 1 by omega] at hok
    rw [hok] at hfail
    cases hfail
  · intro rows j hj t hv
    have := process_policies_aux_mem st rows 0 j hj t hv
    simpa using this

/-- Stages that fail (only) on the paragraph `坏段`. -/
def c6Stages : Stages :=
  { get_scene_tags := fun p => if p = "坏段" then .error "oracle down" else .ok []
    extract_entities := fun _ => .ok []
    classify_entities := fun _ => .ok []
    analyze_actions := fun _ _ _ => .ok [] }

/-- C6 (witness): with a stage that raises on paragraph 2, no record carries
`段号 = 2`, while paragraph 1 is still recorded. -/
theorem process_paragraphs_isolation_witness :
    (∀ r ∈ process_paragraphs c6Stages ["好段", "坏段"], r.idx ≠ 2) ∧
    ({ para := "好段", idx := 1, sceneTags := [], entities := [],
       relations := [] } : ParaRecord) ∈ process_paragraphs c6Stages ["好段", "坏段"] := by
  have h := process_paragraphs_isolation c6Stages ["好段", "坏段"]
  constructor
  · exact h.2.2.1 1 (by decide) rfl
  · exact h.2.1 0 (by decide) _ rfl

theorem build_entity_list_items (ents : List String) (classified : Classified) :
    (build_entity_list ents classified).map EntityRow.item = ents := by
  unfold build_entity_list
  rw [List.map_map]
  have hid : (EntityRow.item ∘ fun e : String =>
      ({ item := e,
         cat1 := ((classified.lookup e).map Prod.fst).getD "",
         cat2 := ((classified.lookup e).map Prod.snd).getD "" } : EntityRow)) = id := rfl
  rw [hid, List.map_id]

/-- C8 (amended).  A converted ActionTriple's scenario is exactly the first
three fields of some length-≥5 oracle action row (with the action and data
item the fourth and fifth fields); membership of that scenario in the
paragraph's ScenarioTag list is not checked anywhere — the relation rows of
every recorded paragraph are just the converted rows returned by the
action-analysis stage for that paragraph. -/
theorem relation_scene_amended :
    (∀ (raw : List PyVal) (rel : RelRow), rel ∈ convert_relations raw →
        ∃ xs, PyVal.list xs ∈ raw ∧ 5 ≤ xs.length ∧ rel.scene = xs.take 3 ∧
          rel.action = xs.getD 3 .null ∧ rel.item = xs.getD 4 .null) ∧
    (∀ (st : Stages) (paras : List String) (r : ParaRecord),
        r ∈ process_paragraphs st paras → ∀ rel ∈ r.relations,
        ∃ raw, st.analyze_actions r.para r.sceneTags
            (r.entities.map EntityRow.item) = .ok raw ∧
          rel ∈ convert_relations raw) := by
  constructor
  · intro raw rel hrel
    obtain ⟨t, ht, hconv⟩ := List.mem_filterMap.1 hrel
    cases t with
    | scalar v => simp at hconv
    | list xs =>
      by_cases h5 : 5 ≤ xs.length
      · simp only [h5, if_true] at hconv
        refine ⟨xs, ht, h5, ?_, ?_, ?_⟩ <;> rw [← Option.some_inj.1 hconv]
      · simp [h5] at hconv
  · intro st paras r hr rel hrel
    obtain ⟨j, hj, hok⟩ := (mem_process_paragraphs_aux st paras 0 r).1 hr
    obtain ⟨tags, ents, classified, raw, h1, h2, h3, h4, rfl⟩ :=
      (run_paragraph_ok_iff st _ _ r).1 hok
    refine ⟨raw, ?_, hrel⟩
    show st.analyze_actions _ tags ((build_entity_list ents classified).map
      EntityRow.item) = .ok raw
    rw [build_entity_list_items]
    exact h4

/-- Stages whose action oracle invents a scenario not among the scene tags. -/
def c8Stages : Stages :=
  { get_scene_tags := fun _ => .ok [PyVal.list [.s "账户与身份管理", .s "登录与注册"]]
    extract_entities := fun _ => .ok ["姓名"]
    classify_entities := fun _ => .ok [("姓名", ("个人基本资料", "个人基本资料"))]
    analyze_actions := fun _ _ _ =>
      .ok [PyVal.list [.s "交易与商务处理", .s "购买与支付", .s "支付订单",
        .s "收集", .s "姓名"]] }

/-- C8 (counterexample).  The action oracle may return any triple; the code
stores `rel[:3]` as the scenario without checking it against the paragraph's
scene-tag list, so a recorded ActionTriple's scenario need not be a member of
the paragraph's ScenarioTag list. -/
theorem relation_scene_cex :
    ∃ r ∈ process_paragraphs c8Stages ["p"], ∃ rel ∈ r.relations,
      PyVal.list rel.scene ∉ r.sceneTags := by decide

/-- C8 (witness): the amended theorem applied to one concrete action row. -/
theorem relation_scene_amended_witness :
    ∃ xs, PyVal.list xs ∈
        [PyVal.list [PyScalar.s "A", PyScalar.s "B", PyScalar.s "C",
          PyScalar.s "收集", PyScalar.s "姓名"]] ∧
      5 ≤ xs.length ∧
      ([PyScalar.s "A", PyScalar.s "B", PyScalar.s "C"] : List PyScalar)
        = xs.take 3 ∧
      PyScalar.s "收集" = xs.getD 3 .null ∧
      PyScalar.s "姓名" = xs.getD 4 .null := by
  exact relation_scene_amended.1
    [PyVal.list [PyScalar.s "A", PyScalar.s "B", PyScalar.s "C",
      PyScalar.s "收集", PyScalar.s "姓名"]]
    { scene := [PyScalar.s "A", PyScalar.s "B", PyScalar.s "C"],
      action := PyScalar.s "收集", item := PyScalar.s "姓名" }
    (by decide)

/-- C9.  `flatten_results` is a total function (it cannot raise); when an
ActionTriple references a data item with no matching entry in the paragraph's
entity list, the emitted flat record carries the empty string in both
category fields, and it is still emitted. -/
theorem flatten_results_missing_item (policy : String)
    (content : List ParaRecord) (p : ParaRecord) (rel : RelRow)
    (hp : p ∈ content) (hr : rel ∈ p.relations)
    (hmiss : ∀ e ∈ p.entities, PyScalar.s e.item ≠ rel.item) :
    flatten_one policy p rel ∈ flatten_results policy content ∧
    (flatten_one policy p rel).cat1 = "" ∧
    (flatten_one policy p rel).cat2 = "" := by
  have hfind : p.entities.find? (fun e => PyScalar.s e.item == rel.item) = none :=
    List.find?_eq_none.2 (fun e he => by simp [hmiss e he])
  refine ⟨?_, ?_, ?_⟩
  · unfold flatten_results
    exact List.mem_flatMap.2 ⟨p, hp, List.mem_map.2 ⟨rel, hr, rfl⟩⟩
  · unfold flatten_one
    rw [hfind]
    rfl
  · unfold flatten_one
    rw [hfind]
    rfl

/-- A paragraph record whose single relation references a data item missing
from its (empty) entity list. -/
def c9Para : ParaRecord :=
  { para := "p", idx := 1, sceneTags := [],
    entities := [{ item := "姓名", cat1 := "个人基本资料", cat2 := "个人基本资料" }],
    relations := [{ scene := [], action := .s "收集", item := .s "幽灵数据项" }] }

/-- C9 (witness): the theorem applied to a concrete record whose relation
references `幽灵数据项`, absent from the entity list. -/
theorem flatten_results_missing_item_witness :
    flatten_one "政策" c9Para
        { scene := [], action := .s "收集", item := .s "幽灵数据项" }
      ∈ flatten_results "政策" [c9Para] ∧
    (flatten_one "政策" c9Para
        { scene := [], action := .s "收集", item := .s "幽灵数据项" }).cat1 = "" ∧
    (flatten_one "政策" c9Para
        { scene := [], action := .s "收集", item := .s "幽灵数据项" }).cat2 = "" := by
  exact flatten_results_missing_item "政策" [c9Para] c9Para
    { scene := [], action := .s "收集", item := .s "幽灵数据项" }
    (by decide) (by decide) (by decide)

/-- C10.  A row whose policy-text cell is not a string, or is
empty/whitespace after stripping, contributes nothing: processing the row
list is the same as processing the remaining rows (with their original
indices), and every nested record and every flat record of the output
originates from some valid row.  The document loop is a total function, so
no error is raised. -/
theorem process_policies_skip (st : Stages) :
    (∀ (i : Nat) (c : Cell) (rest : List Cell), valid_policy_text c = none →
        process_policies_aux st i (c :: rest)
          = process_policies_aux st (i + 1) rest) ∧
    (∀ (rows : List Cell) (entry : String × List ParaRecord),
        entry ∈ (process_policies st rows).1 →
        ∃ j, ∃ hj : j < rows.length, ∃ t,
          valid_policy_text (rows.get ⟨j, hj⟩) = some t ∧
          entry = (policy_name_of j,
            process_paragraphs st (split_paragraphs t))) ∧
    (∀ (rows : List Cell) (f : FlatRow), f ∈ (process_policies st rows).2 →
        ∃ j, ∃ hj : j < rows.length, ∃ t,
          valid_policy_text (rows.get ⟨j, hj⟩) = some t ∧
          f ∈ flatten_results (policy_name_of j)
            (process_paragraphs st (split_paragraphs t))) := by
  refine ⟨?_, ?_, ?_⟩
  · intro i c rest hv
    simp [process_policies_aux, hv]
  · intro rows entry hentry
    obtain ⟨j, hj, t, hv, he⟩ := (process_policies_aux_origin st rows 0).1 entry hentry
    exact ⟨j, hj, t, hv, by simpa using he⟩
  · intro rows f hf
    obtain ⟨j, hj, t, hv, he⟩ := (process_policies_aux_origin st rows 0).2 f hf
    exact ⟨j, hj, t, hv, by simpa using he⟩

/-- All-succeeding trivial stages. -/
def c10Stages : Stages :=
  { get_scene_tags := fun _ => .ok []
    extract_entities := fun _ => .ok []
    classify_entities := fun _ => .ok []
    analyze_actions := fun _ _ _ => .ok [] }

/-- C10 (witness): a NaN-like cell and a whitespace-only cell are skipped,
and the origin clause applied to the surviving row's record. -/
theorem process_policies_skip_witness :
    process_policies_aux c10Stages 0 [Cell.other, Cell.str " "]
      = process_policies_aux c10Stages 1 [Cell.str " "] ∧
    (∃ j, ∃ hj : j < ([Cell.other, Cell.str "正文"] : List Cell).length, ∃ t,
      valid_policy_text (([Cell.other, Cell.str "正文"] : List Cell).get ⟨j, hj⟩)
          = some t ∧
      (policy_name_of 1, process_paragraphs c10Stages (split_paragraphs "正文"))
        = (policy_name_of j,
            process_paragraphs c10Stages (split_paragraphs t))) := by
  have h := process_policies_skip c10Stages
  constructor
  · exact h.1 0 Cell.other [Cell.str " "] rfl
  · exact h.2.1 [Cell.other, Cell.str "正文"]
      (policy_name_of 1, process_paragraphs c10Stages (split_paragraphs "正文"))
      (by decide)
